import Mathlib

/-!
Formal model of the snapshot serialization module (`src/serialization.rs`):
the normalization pipeline (recursive key sorting, ordered redactions), the
per-format encoder dispatch with its canonicalization quirks, and the value
adapter entry points.  Rendered text is modelled as a list of characters.
The `Content` value tree, its `sort_maps`, `as_slice` and `as_yaml` methods,
and the external format encoders (serde_json, dep_csv, dep_ron, dep_toml)
live outside `src/`; those are modelled from the spec, as marked on each
definition.  Fallible operations (Rust `unwrap`/panic points) return
`Option`, with `none` standing for an aborted call.
-/

namespace Insta

/-- Rendered text, modelled as a list of characters. -/
abbrev Text := List Char

/-- Modelled from the spec: the generic value tree (the `Content`
collaborator, whose module is not under `src/`): a tagged union of `Map`
(ordered key/value pairs), `Seq` (ordered values), and scalars
(string / number / boolean / null / byte-sequence). -/
inductive Content where
  | Null : Content
  | Boolean (b : Bool) : Content
  | Num (n : Int) : Content
  | Str (s : String) : Content
  | Bytes (bs : List Nat) : Content
  | Seq (items : List Content) : Content
  | Map (pairs : List (Content × Content)) : Content

/-- The decimal digit characters, used to render numbers. -/
def digitChar (k : Nat) : Char :=
  (['0', '1', '2', '3', '4', '5', '6', '7', '8', '9'] : List Char).getD k '9'

/-- Decimal rendering of a natural number, with explicit fuel (fuel
`n + 1` always suffices, since a number has at most as many digits as its
value). -/
def natTextAux : Nat → Nat → Text
  | 0, _ => []
  | fuel + 1, n =>
    if n < 10 then [digitChar n]
    else natTextAux fuel (n / 10) ++ [digitChar (n % 10)]

/-- Decimal rendering of a natural number. -/
def natText (n : Nat) : Text :=
  natTextAux (n + 1) n

/-- Decimal rendering of an integer. -/
def intText (n : Int) : Text :=
  if n < 0 then '-' :: natText n.natAbs else natText n.toNat

/-- Rendering of a boolean. -/
def boolText (b : Bool) : Text :=
  if b then "true".data else "false".data

/-- An unquoted textual form for a tree node, used to build the key order
and fallback key renderings. -/
def plainText : Content → Text
  | .Null => "null".data
  | .Boolean b => boolText b
  | .Num n => intText n
  | .Str s => s.data
  | .Bytes _ => "bytes".data
  | .Seq _ => "seq".data
  | .Map _ => "map".data

/-- A rank distinguishing the variants of the tree, used to make the key
order total across variants. -/
def variantRank : Content → Nat
  | .Null => 0
  | .Boolean _ => 1
  | .Num _ => 2
  | .Str _ => 3
  | .Bytes _ => 4
  | .Seq _ => 5
  | .Map _ => 6

/-- Lexicographic comparison of two character lists (by code point). -/
def textLe : Text → Text → Bool
  | [], _ => true
  | _ :: _, [] => false
  | a :: as, b :: bs =>
    if a.toNat < b.toNat then true
    else if b.toNat < a.toNat then false
    else textLe as bs

/-- Modelled from the spec: the total order over map keys used by the
recursive key sort.  Keys are compared by variant rank, then by their
textual form. -/
def keyRepr (c : Content) : Text :=
  digitChar (variantRank c) :: plainText c

/-- Boolean comparison of two keys in the total key order. -/
def keyLe (a b : Content) : Bool :=
  textLe (keyRepr a) (keyRepr b)

/-- The key order lifted to map pairs (compare first components). -/
def pairLe (p q : Content × Content) : Bool := keyLe p.1 q.1

mutual

/-- Modelled from the spec: `Content::sort_maps` (the value-tree
collaborator's recursive key sort, not under `src/`): recursively sorts
every `Map` node's pairs by key, at all depths, with a stable sort. -/
def Content.sort_maps : Content → Content
  | .Seq items => .Seq (sortMapsList items)
  | .Map pairs => .Map (List.mergeSort (sortMapsPairs pairs) pairLe)
  | c => c

/-- `sort_maps` mapped over the elements of a sequence. -/
def sortMapsList : List Content → List Content
  | [] => []
  | c :: cs => c.sort_maps :: sortMapsList cs

/-- `sort_maps` mapped over both components of each map pair. -/
def sortMapsPairs : List (Content × Content) → List (Content × Content)
  | [] => []
  | p :: ps => (p.1.sort_maps, p.2.sort_maps) :: sortMapsPairs ps

end

/-- Adjacent pairs of a map's entry list are in key order. -/
def keysOrdered : List (Content × Content) → Bool
  | [] => true
  | [_] => true
  | p :: q :: ps => pairLe p q && keysOrdered (q :: ps)

mutual

/-- Every `Map` node of the tree, at every nesting depth, has its pairs in
key order. -/
def Content.is_sorted : Content → Bool
  | .Seq items => isSortedList items
  | .Map pairs => keysOrdered pairs && isSortedPairs pairs
  | _ => true

/-- `is_sorted` over the elements of a sequence. -/
def isSortedList : List Content → Bool
  | [] => true
  | c :: cs => c.is_sorted && isSortedList cs

/-- `is_sorted` over both components of each map pair. -/
def isSortedPairs : List (Content × Content) → Bool
  | [] => true
  | p :: ps => p.1.is_sorted && p.2.is_sorted && isSortedPairs ps

end

/-- The configuration snapshot observed through `Settings::with`: the
sort-keys flag and the ordered list of redaction rules.  A rule is the
application of one `(selector, redaction)` pair, i.e. the collaborator
call `selector.redact(tree, redaction)`, modelled as a tree-to-tree
function (selectors and redactions are opaque to this core). -/
structure Settings where
  sort_maps : Bool
  redactions : List (Content → Content)

/-- Fold a list of redaction rules over a tree, each application taking
the tree produced by the previous one (the `for` loop of the source). -/
def applyRules (rules : List (Content → Content)) (c : Content) : Content :=
  rules.foldl (fun acc r => r acc) c

/-- The normalization block of `serialize_content` (source lines 30-41):
sort maps if the flag is set, then apply every configured redaction in
list order. -/
def normalize (c : Content) (settings : Settings) : Content :=
  applyRules settings.redactions
    (if settings.sort_maps then c.sort_maps else c)

/-! ### Text helpers shared by the format encoders -/

/-- Escaping of one character inside a double-quoted string literal. -/
def escChar (ch : Char) : Text :=
  if ch = '"' then ['\\', '"']
  else if ch = '\\' then ['\\', '\\']
  else if ch = '\n' then ['\\', 'n']
  else if ch = '\r' then ['\\', 'r']
  else if ch = '\t' then ['\\', 't']
  else [ch]

/-- A double-quoted, escaped string literal. -/
def quotedText (t : Text) : Text :=
  '"' :: (t.flatMap escChar ++ ['"'])

/-- A double-quoted, escaped rendering of a string. -/
def quoted (s : String) : Text :=
  quotedText s.data

/-- Indentation: two spaces per level. -/
def pad (n : Nat) : Text :=
  List.replicate (2 * n) ' '

/-- The opening curly brace character. -/
def lbrace : Char := Char.ofNat 123

/-- The closing curly brace character. -/
def rbrace : Char := Char.ofNat 125

/-- Comma-separated decimal renderings of a list of naturals. -/
def natListText : List Nat → Text
  | [] => []
  | [n] => natText n
  | n :: ns => natText n ++ (',' :: natListText ns)

/-! ### Yaml encoder (collaborator) -/

/-- The scalar text used by the yaml renderer (nested nodes only reach
this through the simplified key position rendering). -/
def yamlScalarText : Content → Text
  | .Null => "~".data
  | .Boolean b => boolText b
  | .Num n => intText n
  | .Str s => s.data
  | c => plainText c

mutual

/-- One yaml line per sequence element: `- item`. -/
def yamlSeqItems : List Content → Nat → Text
  | [], _ => []
  | c :: cs, ind =>
    (pad ind ++ ('-' :: ' ' :: [])) ++ (yamlItemBody c ind ++ yamlSeqItems cs ind)

/-- One yaml line per map entry: `key: value`. -/
def yamlMapEntries : List (Content × Content) → Nat → Text
  | [], _ => []
  | p :: ps, ind =>
    (pad ind ++ (yamlScalarText p.1 ++ [':'])) ++
      (yamlEntryValue p.2 ind ++ yamlMapEntries ps ind)

/-- The text following a `- ` sequence marker. -/
def yamlItemBody : Content → Nat → Text
  | .Seq xs, ind => '\n' :: yamlSeqItems xs (ind + 1)
  | .Map ps, ind => '\n' :: yamlMapEntries ps (ind + 1)
  | c, _ => yamlScalarText c ++ ['\n']

/-- The text following a `key:` map marker. -/
def yamlEntryValue : Content → Nat → Text
  | .Seq xs, ind => '\n' :: yamlSeqItems xs (ind + 1)
  | .Map ps, ind => '\n' :: yamlMapEntries ps (ind + 1)
  | c, _ => ' ' :: (yamlScalarText c ++ ['\n'])

end

/-- The yaml document body, below the document marker. -/
def yamlTop : Content → Text
  | .Seq xs => yamlSeqItems xs 0
  | .Map ps => yamlMapEntries ps 0
  | c => yamlScalarText c ++ ['\n']

/-- Modelled from the spec: `Content::as_yaml` (the value-tree
collaborator's canonical yaml renderer, not under `src/`), guaranteed to
begin with the 4-character document marker `---` plus newline. -/
def Content.as_yaml (c : Content) : Text :=
  "---\n".data ++ yamlTop c

/-! ### Json encoder (collaborator) -/

/-- The rendering of an object key (serde keys are rendered as quoted
strings; non-string scalars fall back to their plain textual form). -/
def jsonKey : Content → Text
  | .Str s => quoted s
  | c => quotedText (plainText c)

mutual

/-- Modelled from the spec: `serde_json::to_string_pretty` — pretty,
stable two-space indentation, key order exactly as carried by the tree,
no trailing terminator. -/
def jsonValue : Content → Nat → Text
  | .Null, _ => "null".data
  | .Boolean b, _ => boolText b
  | .Num n, _ => intText n
  | .Str s, _ => quoted s
  | .Bytes bs, _ => '[' :: (natListText bs ++ [']'])
  | .Seq xs, ind =>
    if xs.isEmpty then "[]".data
    else '[' :: '\n' :: (jsonItems xs (ind + 1) ++ ('\n' :: (pad ind ++ [']'])))
  | .Map ps, ind =>
    if ps.isEmpty then [lbrace, rbrace]
    else lbrace :: '\n' :: (jsonPairs ps (ind + 1) ++ ('\n' :: (pad ind ++ [rbrace])))

/-- Json array elements, one per line, separated by commas. -/
def jsonItems : List Content → Nat → Text
  | [], _ => []
  | [c], ind => pad ind ++ jsonValue c ind
  | c :: cs, ind =>
    (pad ind ++ jsonValue c ind) ++ (',' :: '\n' :: jsonItems cs ind)

/-- Json object entries, one per line, separated by commas. -/
def jsonPairs : List (Content × Content) → Nat → Text
  | [], _ => []
  | [p], ind => pad ind ++ (jsonKey p.1 ++ (':' :: ' ' :: jsonValue p.2 ind))
  | p :: ps, ind =>
    (pad ind ++ (jsonKey p.1 ++ (':' :: ' ' :: jsonValue p.2 ind))) ++
      (',' :: '\n' :: jsonPairs ps ind)

end

/-! ### Ron encoder (collaborator) -/

mutual

/-- Modelled from the spec: the `dep_ron` pretty serializer with the fixed
style used by the source (newline `\n`, two-space indent); produces no
trailing terminator of its own. -/
def ronValue : Content → Nat → Text
  | .Null, _ => "None".data
  | .Boolean b, _ => boolText b
  | .Num n, _ => intText n
  | .Str s, _ => quoted s
  | .Bytes bs, _ => '[' :: (natListText bs ++ [']'])
  | .Seq xs, ind =>
    if xs.isEmpty then "[]".data
    else '[' :: '\n' :: (ronItems xs (ind + 1) ++ (pad ind ++ [']']))
  | .Map ps, ind =>
    if ps.isEmpty then [lbrace, rbrace]
    else lbrace :: '\n' :: (ronPairs ps (ind + 1) ++ (pad ind ++ [rbrace]))

/-- Ron sequence elements, each on its own line with a trailing comma. -/
def ronItems : List Content → Nat → Text
  | [], _ => []
  | c :: cs, ind =>
    (pad ind ++ ronValue c ind) ++ (',' :: '\n' :: ronItems cs ind)

/-- Ron map entries, each on its own line with a trailing comma. -/
def ronPairs : List (Content × Content) → Nat → Text
  | [], _ => []
  | p :: ps, ind =>
    (pad ind ++ (ronValue p.1 ind ++ (':' :: ' ' :: ronValue p.2 ind))) ++
      (',' :: '\n' :: ronPairs ps ind)

end

/-! ### Csv encoder (collaborator) -/

/-- Modelled from the spec: the csv rendering of one scalar field; nested
nodes cannot be csv fields and make the writer fail. -/
def csvScalar : Content → Option Text
  | .Str s => some s.data
  | .Num n => some (intText n)
  | .Boolean b => some (boolText b)
  | .Null => some []
  | _ => none

/-- Csv field texts for a list of scalar nodes; fails if any is nested. -/
def csvScalarList : List Content → Option (List Text)
  | [] => some []
  | c :: cs => do
    let t ← csvScalar c
    let ts ← csvScalarList cs
    some (t :: ts)

/-- Does a csv field need quoting (contains a comma, quote or line
break)? -/
def csvNeedsQuote (f : Text) : Bool :=
  f.any fun ch => ch = ',' || ch = '"' || ch = '\n' || ch = '\r'

/-- A quoted csv field: embedded quotes doubled, surrounded by quotes. -/
def csvQuoteField (f : Text) : Text :=
  '"' :: ((f.flatMap fun ch => if ch = '"' then ['"', '"'] else [ch]) ++ ['"'])

/-- A rendered csv field, quoted only when necessary. -/
def csvField (f : Text) : Text :=
  if csvNeedsQuote f then csvQuoteField f else f

/-- Comma-joined rendered csv fields. -/
def csvJoin : List Text → Text
  | [] => []
  | [f] => csvField f
  | f :: fs => csvField f ++ (',' :: csvJoin fs)

/-- One csv record row.  A record consisting of a single empty field is
written as a pair of quotes, to keep it distinguishable from an empty
record (a rule of the csv writer). -/
def csvRow (fields : List Text) : Text :=
  if fields = [([] : Text)] then ['"', '"'] else csvJoin fields

/-- The fields of one record: a map contributes its values, a sequence its
elements, a scalar a single field.  Records without fields and records
with nested fields are rejected by the writer. -/
def csvFields : Content → Option (List Text)
  | .Map ps => if ps.isEmpty then none else csvScalarList (ps.map Prod.snd)
  | .Seq xs => if xs.isEmpty then none else csvScalarList xs
  | c => (csvScalar c).map fun t => [t]

/-- The header fields of one record: only map records carry a header,
derived from their keys. -/
def csvHeaderFields : Content → Option (List Text)
  | .Map ps => csvScalarList (ps.map Prod.fst)
  | _ => none

/-- Rows for the records after the first; every record must have the same
field count as the first (the writer rejects unequal lengths). -/
def csvValueRows (n : Nat) : List Content → Option (List Text)
  | [] => some []
  | c :: cs => do
    let fs ← csvFields c
    if fs.length = n then do
      let rest ← csvValueRows n cs
      some (csvRow fs :: rest)
    else none

/-- All rows written for a list of records: a header derived from the
first record's shape (when it has one), then one row per record. -/
def csvRows : List Content → Option (List Text)
  | [] => some []
  | c :: cs => do
    let fs ← csvFields c
    let rest ← csvValueRows fs.length cs
    match csvHeaderFields c with
    | some hs => some (csvRow hs :: (csvRow fs :: rest))
    | none => some (csvRow fs :: rest)

/-- Modelled from the spec: `Content::as_slice` (the value-tree
collaborator's view of a top-level sequence, not under `src/`). -/
def Content.as_slice : Content → Option (List Content)
  | .Seq items => some items
  | _ => none

/-- The records serialized by the csv branch: each element of a top-level
sequence, otherwise the whole tree as a single record (source lines
59-67). -/
def csvRecords (c : Content) : List Content :=
  match c.as_slice with
  | some items => items
  | none => [c]

/-- The flushed csv writer buffer: every row terminated by a newline. -/
def csvBuf (c : Content) : Option Text :=
  (csvRows (csvRecords c)).map fun rows => (rows.map (· ++ ['\n'])).flatten

/-! ### Toml encoder (collaborator) -/

/-- Is a toml key printable bare (nonempty, alphanumeric, `-` or `_`)? -/
def tomlBareKeyOk (t : Text) : Bool :=
  !t.isEmpty && t.all fun ch => ch.isAlphanum || ch = '-' || ch = '_'

/-- A toml key: a string, bare when safe, quoted otherwise. -/
def tomlKey : Content → Option Text
  | .Str s => some (if tomlBareKeyOk s.data then s.data else quoted s)
  | _ => none

/-- A toml scalar value; the encoder has no null and the model keeps
tables flat, so anything else fails. -/
def tomlTextOfValue : Content → Option Text
  | .Str s => some (quoted s)
  | .Num n => some (intText n)
  | .Boolean b => some (boolText b)
  | _ => none

/-- One `key = value` line per map entry (without its newline). -/
def tomlLines : List (Content × Content) → Option (List Text)
  | [] => some []
  | p :: ps => do
    let kt ← tomlKey p.1
    let vt ← tomlTextOfValue p.2
    let rest ← tomlLines ps
    some ((kt ++ (' ' :: '=' :: ' ' :: vt)) :: rest)

/-- Modelled from the spec: `dep_toml::to_string_pretty` — pretty
structural serialization of a top-level table, each line terminated by a
newline. -/
def renderTomlRaw : Content → Option Text
  | .Map ps => (tomlLines ps).map fun lines => (lines.map (· ++ ['\n'])).flatten
  | _ => none

/-! ### Format dispatch and adapter entry points (the source functions) -/

/-- The closed format selector of the source. -/
inductive SerializationFormat where
  | Csv
  | Ron
  | Toml
  | Yaml
  | Json

/-- The output location mode of the source. -/
inductive SnapshotLocation where
  | Inline
  | File

/-- Rust's slice `&t[n..]` on text: panics (modelled as `none`) when `n`
is out of bounds.  The source only slices at index 4, right after the
ASCII document marker, so the byte/character distinction is immaterial. -/
def rustSlice (t : Text) (n : Nat) : Option Text :=
  if n ≤ t.length then some (t.drop n) else none

/-- Strip exactly one trailing newline, when present. -/
def stripNewline (t : Text) : Text :=
  if t.getLast? = some '\n' then t.dropLast else t

/-- Does the text end with a line terminator? -/
def endsWithNewline (t : Text) : Bool :=
  t.getLast? == some '\n'

/-- The format dispatch of `serialize_content` (source lines 43-99): one
branch per format, each with its own post-processing. -/
def render (c : Content) (format : SerializationFormat)
    (location : SnapshotLocation) : Option Text :=
  match format with
  | .Yaml =>
    match location with
    | .Inline => some c.as_yaml
    | .File => rustSlice c.as_yaml 4
  | .Json => some (jsonValue c 0)
  | .Csv => (csvBuf c).map stripNewline
  | .Ron => some (ronValue c 0)
  | .Toml => (renderTomlRaw c).map stripNewline

/-- `serialize_content` (source lines 25-100): normalize under the
configuration snapshot, then dispatch on the format. -/
def serialize_content (content : Content) (format : SerializationFormat)
    (location : SnapshotLocation) (settings : Settings) : Option Text :=
  render (normalize content settings) format location

/-- `serialize_value` (source lines 102-110): convert the input to a value
tree through the generic `ContentSerializer` (modelled as a caller-supplied
fallible conversion, with `none` for the `unwrap` panic), then hand the
tree unchanged to `serialize_content`. -/
def serialize_value {α : Type} (fromValue : α → Option Content) (s : α)
    (format : SerializationFormat) (location : SnapshotLocation)
    (settings : Settings) : Option Text :=
  match fromValue s with
  | none => none
  | some content => serialize_content content format location settings

/-- `serialize_value_redacted` (source lines 112-125): convert the input,
apply the caller-supplied redaction rules in order, then hand the result
to `serialize_content`. -/
def serialize_value_redacted {α : Type} (fromValue : α → Option Content)
    (redactions : List (Content → Content)) (s : α)
    (format : SerializationFormat) (location : SnapshotLocation)
    (settings : Settings) : Option Text :=
  match fromValue s with
  | none => none
  | some content =>
    serialize_content (applyRules redactions content) format location settings

/-- Written from the spec's adapter formula, for comparison with the
code's `serialize_value`:
`serialize(value, format, location) = render(normalize(from_value(value), ambient_config), format, location)`,
with failure of any stage propagated. -/
def serializeValueSpec {α : Type} (fromValue : α → Option Content) (s : α)
    (format : SerializationFormat) (location : SnapshotLocation)
    (settings : Settings) : Option Text :=
  (fromValue s).bind fun c => render (normalize c settings) format location

/-! ### Properties of the key order -/

theorem textLe_trans :
    ∀ as bs cs : Text, textLe as bs → textLe bs cs → textLe as cs := by
  intro as
  induction as with
  | nil => intro bs cs _ _; rfl
  | cons a as ih =>
    intro bs cs h₁ h₂
    cases bs with
    | nil => simp [textLe] at h₁
    | cons b bs =>
      cases cs with
      | nil => simp [textLe] at h₂
      | cons c cs =>
        simp only [textLe] at h₁ h₂ ⊢
        by_cases hab : a.toNat < b.toNat
        · by_cases hbc : b.toNat < c.toNat
          · simp [show a.toNat < c.toNat by omega]
          · by_cases hcb : c.toNat < b.toNat
            · simp [hbc, hcb] at h₂
            · simp [show a.toNat < c.toNat by omega]
        · by_cases hba : b.toNat < a.toNat
          · simp [hab, hba] at h₁
          · by_cases hbc : b.toNat < c.toNat
            · simp [show a.toNat < c.toNat by omega]
            · by_cases hcb : c.toNat < b.toNat
              · simp [hbc, hcb] at h₂
              · simp [hab, hba] at h₁
                simp [hbc, hcb] at h₂
                simp [show ¬a.toNat < c.toNat by omega,
                  show ¬c.toNat < a.toNat by omega]
                exact ih bs cs h₁ h₂

theorem textLe_total (as bs : Text) : textLe as bs || textLe bs as := by
  induction as generalizing bs with
  | nil => simp [textLe]
  | cons a as ih =>
    cases bs with
    | nil => simp [textLe]
    | cons b bs =>
      simp only [textLe]
      split <;> split <;> simp_all

theorem keyLe_trans (a b c : Content) (h₁ : keyLe a b) (h₂ : keyLe b c) :
    keyLe a c :=
  textLe_trans _ _ _ h₁ h₂

theorem keyLe_total (a b : Content) : keyLe a b || keyLe b a :=
  textLe_total _ _

theorem pairLe_trans (p q r : Content × Content) (h₁ : pairLe p q)
    (h₂ : pairLe q r) : pairLe p r :=
  keyLe_trans _ _ _ h₁ h₂

theorem pairLe_total (p q : Content × Content) : pairLe p q || pairLe q p :=
  keyLe_total _ _

/-! ### The recursive key sort produces sorted trees -/

theorem keysOrdered_of_pairwise :
    ∀ ps : List (Content × Content),
      ps.Pairwise (fun p q => pairLe p q = true) → keysOrdered ps = true := by
  intro ps h
  induction h with
  | nil => rfl
  | cons hhead _ ih =>
    rename_i p ps _
    cases ps with
    | nil => rfl
    | cons q ps =>
      simp only [keysOrdered, Bool.and_eq_true]
      exact ⟨hhead q (List.mem_cons_self _ _), ih⟩

theorem isSortedPairs_of_mem :
    ∀ ps : List (Content × Content),
      (∀ p ∈ ps, p.1.is_sorted = true ∧ p.2.is_sorted = true) →
      isSortedPairs ps = true := by
  intro ps h
  induction ps with
  | nil => rfl
  | cons p ps ih =>
    simp only [isSortedPairs, Bool.and_eq_true]
    refine ⟨⟨(h p (List.mem_cons_self _ _)).1, (h p (List.mem_cons_self _ _)).2⟩, ?_⟩
    exact ih fun q hq => h q (List.mem_cons_of_mem _ hq)

mutual

theorem sortMaps_sorted : (c : Content) → c.sort_maps.is_sorted = true
  | .Null => rfl
  | .Boolean _ => rfl
  | .Num _ => rfl
  | .Str _ => rfl
  | .Bytes _ => rfl
  | .Seq items => by
    simpa [Content.sort_maps, Content.is_sorted] using sortMapsList_sorted items
  | .Map pairs => by
    simp only [Content.sort_maps, Content.is_sorted, Bool.and_eq_true]
    refine ⟨keysOrdered_of_pairwise _ ?_, isSortedPairs_of_mem _ ?_⟩
    · have h := List.sorted_mergeSort
        (fun a b c h₁ h₂ => pairLe_trans a b c h₁ h₂)
        (fun a b => pairLe_total a b) (sortMapsPairs pairs)
      exact h.imp fun hpq => hpq
    · exact fun p hp => sortMapsPairs_sorted pairs p (List.mem_mergeSort.mp hp)

theorem sortMapsList_sorted :
    (cs : List Content) → isSortedList (sortMapsList cs) = true
  | [] => rfl
  | c :: cs => by
    simp only [sortMapsList, isSortedList, Bool.and_eq_true]
    exact ⟨sortMaps_sorted c, sortMapsList_sorted cs⟩

theorem sortMapsPairs_sorted :
    (ps : List (Content × Content)) → ∀ p ∈ sortMapsPairs ps,
      p.1.is_sorted = true ∧ p.2.is_sorted = true
  | [] => by simp [sortMapsPairs]
  | q :: ps => by
    intro p hp
    simp only [sortMapsPairs, List.mem_cons] at hp
    rcases hp with h | h
    · subst h
      exact ⟨sortMaps_sorted q.1, sortMaps_sorted q.2⟩
    · exact sortMapsPairs_sorted ps p h

end

/-! ### Last-character and no-newline facts about the text builders -/

theorem digitChar_ne_newline (k : Nat) : digitChar k ≠ '\n' := by
  unfold digitChar
  rcases k with _ | _ | _ | _ | _ | _ | _ | _ | _ | _ | k <;>
    simp [List.getD]

theorem natTextAux_ne_nil (fuel n : Nat) (h : 0 < fuel) :
    natTextAux fuel n ≠ [] := by
  cases fuel with
  | zero => omega
  | succ fuel =>
    simp only [natTextAux]
    split <;> simp

theorem natTextAux_getLast (fuel n : Nat) (h : 0 < fuel) :
    ∃ k, k < 10 ∧ (natTextAux fuel n).getLast? = some (digitChar k) := by
  cases fuel with
  | zero => omega
  | succ fuel =>
    simp only [natTextAux]
    split
    · exact ⟨n, by omega, rfl⟩
    · exact ⟨n % 10, Nat.mod_lt _ (by omega), List.getLast?_concat _⟩

theorem natTextAux_no_newline (fuel n : Nat) :
    '\n' ∉ natTextAux fuel n := by
  induction fuel generalizing n with
  | zero => simp [natTextAux]
  | succ fuel ih =>
    simp only [natTextAux]
    split
    · simp [(digitChar_ne_newline _).symm]
    · intro hmem
      rcases List.mem_append.mp hmem with h | h
      · exact ih _ h
      · simp at h
        exact digitChar_ne_newline _ h.symm

theorem natText_ne_nil (n : Nat) : natText n ≠ [] :=
  natTextAux_ne_nil _ _ (by omega)

theorem natText_getLast_ne_newline (n : Nat) :
    (natText n).getLast? ≠ some '\n' := by
  obtain ⟨k, _, hk⟩ := natTextAux_getLast (n + 1) n (by omega)
  rw [natText, hk]
  simp [digitChar_ne_newline k]

theorem natText_no_newline (n : Nat) : '\n' ∉ natText n :=
  natTextAux_no_newline _ _

theorem intText_getLast_ne_newline (n : Int) :
    (intText n).getLast? ≠ some '\n' := by
  unfold intText
  split
  · rw [show ('-' :: natText n.natAbs) = ['-'] ++ natText n.natAbs from rfl,
      List.getLast?_append]
    have h := natText_getLast_ne_newline n.natAbs
    cases hx : (natText n.natAbs).getLast? with
    | none => exact absurd (List.getLast?_eq_none_iff.mp hx) (natText_ne_nil _)
    | some x =>
      rw [hx] at h
      simpa using fun hc => h (by rw [hc])
  · exact natText_getLast_ne_newline _

theorem intText_ne_nil (n : Int) : intText n ≠ [] := by
  unfold intText
  split
  · simp
  · exact natText_ne_nil _

theorem intText_no_newline (n : Int) : '\n' ∉ intText n := by
  unfold intText
  split
  · intro h
    rcases List.mem_cons.mp h with h | h
    · simp at h
    · exact natText_no_newline _ h
  · exact natText_no_newline _

theorem boolText_getLast_ne_newline (b : Bool) :
    (boolText b).getLast? ≠ some '\n' := by
  cases b <;> simp [boolText]

theorem boolText_ne_nil (b : Bool) : boolText b ≠ [] := by
  cases b <;> simp [boolText]

theorem boolText_no_newline (b : Bool) : '\n' ∉ boolText b := by
  cases b <;> simp [boolText]

theorem escChar_no_newline (ch : Char) : '\n' ∉ escChar ch := by
  unfold escChar
  by_cases h1 : ch = '"' <;> simp [h1]
  by_cases h2 : ch = '\\' <;> simp [h2]
  by_cases h3 : ch = '\n' <;> simp [h3]
  by_cases h4 : ch = '\r' <;> simp [h4]
  by_cases h5 : ch = '\t' <;> simp [h5]
  exact fun hc => h3 hc.symm

theorem quotedText_no_newline (t : Text) : '\n' ∉ quotedText t := by
  unfold quotedText
  intro h
  rcases List.mem_cons.mp h with h | h
  · simp at h
  · rcases List.mem_append.mp h with h | h
    · rcases List.mem_flatMap.mp h with ⟨ch, _, hch⟩
      exact escChar_no_newline ch hch
    · simp at h

theorem quotedText_getLast (t : Text) :
    (quotedText t).getLast? = some '"' := by
  unfold quotedText
  rw [show ('"' :: (t.flatMap escChar ++ ['"']))
      = ('"' :: t.flatMap escChar) ++ ['"'] from by simp]
  exact List.getLast?_concat _

theorem quotedText_ne_nil (t : Text) : quotedText t ≠ [] := by
  simp [quotedText]

/-! ### Rows and buffers: csv and toml never end in a newline once
stripped -/

theorem getLast?_cons_or {α : Type} (a : α) (l : List α) :
    (a :: l).getLast? = l.getLast?.or (some a) := by
  rw [show (a :: l) = [a] ++ l from rfl, List.getLast?_append]
  rfl

theorem csvField_getLast_ne_newline (f : Text) :
    (csvField f).getLast? ≠ some '\n' := by
  unfold csvField
  split
  · unfold csvQuoteField
    rw [getLast?_cons_or, List.getLast?_concat]
    simp
  · rename_i hq
    intro hlast
    have hmem := List.mem_of_getLast?_eq_some hlast
    simp only [csvNeedsQuote, List.any_eq_true] at hq
    exact hq ⟨'\n', hmem, by simp⟩

theorem csvField_ne_nil (f : Text) (h : f ≠ []) : csvField f ≠ [] := by
  unfold csvField
  split
  · simp [csvQuoteField]
  · exact h

theorem csvJoin_getLast_ne_newline :
    ∀ fs : List Text, (csvJoin fs).getLast? ≠ some '\n'
  | [] => by simp [csvJoin]
  | [f] => by
    simpa [csvJoin] using csvField_getLast_ne_newline f
  | f :: g :: fs => by
    have ih := csvJoin_getLast_ne_newline (g :: fs)
    simp only [csvJoin, List.getLast?_append]
    rw [getLast?_cons_or]
    cases hx : (csvJoin (g :: fs)).getLast? with
    | none => simp
    | some x =>
      rw [hx] at ih
      simpa using fun hc => ih (by rw [hc])

theorem csvRow_ok (fields : List Text) (h : fields ≠ []) :
    csvRow fields ≠ [] ∧ (csvRow fields).getLast? ≠ some '\n' := by
  unfold csvRow
  split
  · simp
  · rename_i hne
    refine ⟨?_, csvJoin_getLast_ne_newline fields⟩
    match fields with
    | [f] =>
      have hf : f ≠ [] := fun hc => hne (by rw [hc])
      simpa [csvJoin] using csvField_ne_nil f hf
    | f :: g :: fs =>
      simp [csvJoin]

theorem csvScalarList_length (cs : List Content) (ts : List Text)
    (h : csvScalarList cs = some ts) : ts.length = cs.length := by
  induction cs generalizing ts with
  | nil => simp [csvScalarList] at h; simp [← h]
  | cons c cs ih =>
    simp only [csvScalarList, Option.bind_eq_bind, Option.bind_eq_some] at h
    obtain ⟨t, _, ts', hts', hcons⟩ := h
    simp only [Option.some.injEq] at hcons
    simp [← hcons, ih ts' hts']

theorem csvFields_ne_nil (c : Content) (fs : List Text)
    (h : csvFields c = some fs) : fs ≠ [] := by
  cases c with
  | Map ps =>
    simp only [csvFields] at h
    split at h
    · exact absurd h (by simp)
    · rename_i hps
      have hlen := csvScalarList_length _ _ h
      simp only [List.isEmpty_iff] at hps
      intro hc
      rw [hc] at hlen
      simp only [List.length_nil, List.length_map] at hlen
      exact hps (List.length_eq_zero.mp hlen.symm)
  | Seq xs =>
    simp only [csvFields] at h
    split at h
    · exact absurd h (by simp)
    · rename_i hxs
      have hlen := csvScalarList_length _ _ h
      simp only [List.isEmpty_iff] at hxs
      intro hc
      rw [hc] at hlen
      simp only [List.length_nil] at hlen
      exact hxs (List.length_eq_zero.mp hlen.symm)
  | Null =>
    simp only [csvFields, csvScalar, Option.map_some'] at h
    obtain rfl := Option.some.inj h
    simp
  | Boolean b =>
    simp only [csvFields, csvScalar, Option.map_some'] at h
    obtain rfl := Option.some.inj h
    simp
  | Num n =>
    simp only [csvFields, csvScalar, Option.map_some'] at h
    obtain rfl := Option.some.inj h
    simp
  | Str s =>
    simp only [csvFields, csvScalar, Option.map_some'] at h
    obtain rfl := Option.some.inj h
    simp
  | Bytes bs => simp [csvFields, csvScalar] at h

theorem csvValueRows_ok (n : Nat) :
    ∀ cs rows, csvValueRows n cs = some rows →
      ∀ row ∈ rows, row ≠ [] ∧ row.getLast? ≠ some '\n' := by
  intro cs
  induction cs with
  | nil =>
    intro rows h
    simp only [csvValueRows, Option.some.injEq] at h
    simp [← h]
  | cons c cs ih =>
    intro rows h
    simp only [csvValueRows, Option.bind_eq_bind, Option.bind_eq_some] at h
    obtain ⟨fs, hfs, h⟩ := h
    split at h
    · simp only [Option.bind_eq_some, Option.some.injEq] at h
      obtain ⟨rest, hrest, hcons⟩ := h
      intro row hrow
      rw [← hcons] at hrow
      rcases List.mem_cons.mp hrow with hr | hr
      · subst hr
        exact csvRow_ok fs (csvFields_ne_nil c fs hfs)
      · exact ih rest hrest row hr
    · exact absurd h (by simp)

theorem csvRows_ok (cs : List Content) (rows : List Text)
    (h : csvRows cs = some rows) :
    ∀ row ∈ rows, row ≠ [] ∧ row.getLast? ≠ some '\n' := by
  cases cs with
  | nil =>
    simp only [csvRows, Option.some.injEq] at h
    simp [← h]
  | cons c cs =>
    simp only [csvRows, Option.bind_eq_bind, Option.bind_eq_some] at h
    obtain ⟨fs, hfs, h⟩ := h
    obtain ⟨rest, hrest, h⟩ := h
    have hfsrow := csvRow_ok fs (csvFields_ne_nil c fs hfs)
    have hrestok := csvValueRows_ok _ _ _ hrest
    split at h
    · rename_i hs hhdr
      simp only [Option.some.injEq] at h
      -- the header fields come from a map's keys, as many as its values
      have hhne : hs ≠ [] := by
        cases c with
        | Map ps =>
          simp only [csvHeaderFields] at hhdr
          have hlen := csvScalarList_length _ _ hhdr
          simp only [csvFields] at hfs
          split at hfs
          · exact absurd hfs (by simp)
          · rename_i hps
            simp only [List.isEmpty_iff] at hps
            intro hc
            rw [hc] at hlen
            simp only [List.length_nil, List.length_map] at hlen
            exact hps (List.length_eq_zero.mp hlen.symm)
        | Null => simp [csvHeaderFields] at hhdr
        | Boolean b => simp [csvHeaderFields] at hhdr
        | Num n => simp [csvHeaderFields] at hhdr
        | Str s => simp [csvHeaderFields] at hhdr
        | Bytes bs => simp [csvHeaderFields] at hhdr
        | Seq xs => simp [csvHeaderFields] at hhdr
      intro row hrow
      rw [← h] at hrow
      rcases List.mem_cons.mp hrow with hr | hr
      · subst hr
        exact csvRow_ok hs hhne
      · rcases List.mem_cons.mp hr with hr' | hr'
        · subst hr'
          exact hfsrow
        · exact hrestok row hr'
    · simp only [Option.some.injEq] at h
      intro row hrow
      rw [← h] at hrow
      rcases List.mem_cons.mp hrow with hr | hr
      · subst hr
        exact hfsrow
      · exact hrestok row hr

theorem stripNewline_flatten_ok (rows : List Text)
    (h : ∀ row ∈ rows, row ≠ [] ∧ row.getLast? ≠ some '\n') :
    (stripNewline ((rows.map (· ++ ['\n'])).flatten)).getLast? ≠ some '\n' := by
  rcases List.eq_nil_or_concat' rows with hnil | ⟨rs, r, hcat⟩
  · subst hnil
    simp [stripNewline]
  · subst hcat
    have hr := h r (by simp)
    have hbuf : ((rs ++ [r]).map (· ++ ['\n'])).flatten
        = ((rs.map (· ++ ['\n'])).flatten ++ r) ++ ['\n'] := by
      simp [List.map_append, List.flatten_append, List.append_assoc]
    rw [hbuf]
    have hstrip : stripNewline (((rs.map (· ++ ['\n'])).flatten ++ r) ++ ['\n'])
        = (rs.map (· ++ ['\n'])).flatten ++ r := by
      unfold stripNewline
      rw [List.getLast?_concat]
      simp
    rw [hstrip, List.getLast?_append]
    cases hx : r.getLast? with
    | none => exact absurd (List.getLast?_eq_none_iff.mp hx) hr.1
    | some x =>
      rw [hx] at hr
      simpa using fun hc => hr.2 (by rw [hc])

theorem tomlLines_ok (ps : List (Content × Content)) (lines : List Text)
    (h : tomlLines ps = some lines) :
    ∀ l ∈ lines, l ≠ [] ∧ l.getLast? ≠ some '\n' := by
  induction ps generalizing lines with
  | nil =>
    simp only [tomlLines, Option.some.injEq] at h
    simp [← h]
  | cons p ps ih =>
    obtain ⟨k, v⟩ := p
    simp only [tomlLines, Option.bind_eq_bind, Option.bind_eq_some] at h
    obtain ⟨kt, hkt, vt, hvt, rest, hrest, hcons⟩ := h
    simp only [Option.some.injEq] at hcons
    intro l hl
    rw [← hcons] at hl
    rcases List.mem_cons.mp hl with hl' | hl'
    · subst hl'
      constructor
      · simp
      · intro hlast
        have hmem := List.mem_of_getLast?_eq_some hlast
        rcases List.mem_append.mp hmem with hm | hm
        · -- keys contain no newline: bare keys are alphanumeric,
          -- quoted keys are escaped
          cases k with
          | Str s =>
            simp only [tomlKey, Option.some.injEq] at hkt
            rw [← hkt] at hm
            split at hm
            · rename_i hbare
              simp only [tomlBareKeyOk, Bool.and_eq_true, List.all_eq_true] at hbare
              have := hbare.2 '\n' hm
              simp at this
            · exact quotedText_no_newline _ hm
          | Null => simp [tomlKey] at hkt
          | Boolean b => simp [tomlKey] at hkt
          | Num n => simp [tomlKey] at hkt
          | Bytes bs => simp [tomlKey] at hkt
          | Seq xs => simp [tomlKey] at hkt
          | Map qs => simp [tomlKey] at hkt
        · rcases List.mem_cons.mp hm with hm' | hm'
          · simp at hm'
          · rcases List.mem_cons.mp hm' with hm'' | hm''
            · simp at hm''
            · rcases List.mem_cons.mp hm'' with hm3 | hm3
              · simp at hm3
              · cases v with
                | Str s =>
                  simp only [tomlTextOfValue, Option.some.injEq] at hvt
                  rw [← hvt] at hm3
                  exact quotedText_no_newline _ hm3
                | Num n =>
                  simp only [tomlTextOfValue, Option.some.injEq] at hvt
                  rw [← hvt] at hm3
                  exact intText_no_newline _ hm3
                | Boolean b =>
                  simp only [tomlTextOfValue, Option.some.injEq] at hvt
                  rw [← hvt] at hm3
                  exact boolText_no_newline _ hm3
                | Null => simp [tomlTextOfValue] at hvt
                | Bytes bs => simp [tomlTextOfValue] at hvt
                | Seq xs => simp [tomlTextOfValue] at hvt
                | Map qs => simp [tomlTextOfValue] at hvt
    · exact ih rest hrest l hl'

theorem endsWithNewline_eq_false (t : Text) (h : t.getLast? ≠ some '\n') :
    endsWithNewline t = false := by
  simpa [endsWithNewline] using h

theorem ronValue_getLast_ne_newline (c : Content) (ind : Nat) :
    (ronValue c ind).getLast? ≠ some '\n' := by
  cases c with
  | Null => simp only [ronValue]; decide
  | Boolean b => simp only [ronValue]; exact boolText_getLast_ne_newline b
  | Num n => simp only [ronValue]; exact intText_getLast_ne_newline n
  | Str s =>
    simp only [ronValue, quoted]
    rw [quotedText_getLast]
    simp
  | Bytes bs =>
    simp only [ronValue]
    rw [getLast?_cons_or, List.getLast?_concat]
    simp
  | Seq xs =>
    simp only [ronValue]
    split
    · decide
    · rw [show ('[' :: '\n' :: (ronItems xs (ind + 1) ++ (pad ind ++ [']'])))
          = ('[' :: '\n' :: (ronItems xs (ind + 1) ++ pad ind)) ++ [']'] from by
        simp]
      rw [List.getLast?_concat]
      simp
  | Map ps =>
    simp only [ronValue]
    split
    · decide
    · rw [show (lbrace :: '\n' :: (ronPairs ps (ind + 1) ++ (pad ind ++ [rbrace])))
          = (lbrace :: '\n' :: (ronPairs ps (ind + 1) ++ pad ind)) ++ [rbrace] from by
        simp]
      rw [List.getLast?_concat]
      simp [rbrace]

theorem jsonValue_getLast_ne_newline (c : Content) (ind : Nat) :
    (jsonValue c ind).getLast? ≠ some '\n' := by
  cases c with
  | Null => simp only [jsonValue]; decide
  | Boolean b => simp only [jsonValue]; exact boolText_getLast_ne_newline b
  | Num n => simp only [jsonValue]; exact intText_getLast_ne_newline n
  | Str s =>
    simp only [jsonValue, quoted]
    rw [quotedText_getLast]
    simp
  | Bytes bs =>
    simp only [jsonValue]
    rw [getLast?_cons_or, List.getLast?_concat]
    simp
  | Seq xs =>
    simp only [jsonValue]
    split
    · decide
    · rw [show ('[' :: '\n' :: (jsonItems xs (ind + 1) ++ ('\n' :: (pad ind ++ [']']))))
          = ('[' :: '\n' :: (jsonItems xs (ind + 1) ++ ('\n' :: pad ind))) ++ [']'] from by
        simp]
      rw [List.getLast?_concat]
      simp
  | Map ps =>
    simp only [jsonValue]
    split
    · decide
    · rw [show (lbrace :: '\n' :: (jsonPairs ps (ind + 1) ++ ('\n' :: (pad ind ++ [rbrace]))))
          = (lbrace :: '\n' :: (jsonPairs ps (ind + 1) ++ ('\n' :: pad ind))) ++ [rbrace] from by
        simp]
      rw [List.getLast?_concat]
      simp [rbrace]

theorem applyRules_preserves_sorted (rules : List (Content → Content))
    (t : Content)
    (hr : ∀ r ∈ rules, ∀ u : Content, u.is_sorted = true → (r u).is_sorted = true)
    (ht : t.is_sorted = true) :
    (applyRules rules t).is_sorted = true := by
  induction rules generalizing t with
  | nil => simpa [applyRules] using ht
  | cons r rs ih =>
    have hstep : (applyRules (r :: rs) t) = applyRules rs (r t) := rfl
    rw [hstep]
    exact ih (r t) (fun r' h' u hu => hr r' (List.mem_cons_of_mem _ h') u hu)
      (hr r (List.mem_cons_self _ _) t ht)

/-! ### The claims -/

/-- C1: `serialize_content` normalizes in a fixed order: with the sort flag
set, the tree is first recursively key-sorted at all depths (the sorted
tree satisfies the recursive order invariant), and the configured
redactions are then applied in list order — the first rule sees the sorted
tree, and every later rule sees the output of all earlier rules. -/
theorem normalization_order (c : Content) (b : Bool)
    (rules : List (Content → Content)) (r : Content → Content) :
    (normalize c ⟨b, []⟩ = if b then c.sort_maps else c) ∧
    (c.sort_maps.is_sorted = true) ∧
    (normalize c ⟨b, r :: rules⟩
      = applyRules rules (r (if b then c.sort_maps else c))) ∧
    (normalize c ⟨b, rules ++ [r]⟩ = r (normalize c ⟨b, rules⟩)) := by
  refine ⟨by simp [normalize, applyRules], sortMaps_sorted c, ?_, ?_⟩
  · simp [normalize, applyRules]
  · simp [normalize, applyRules, List.foldl_append]

/-- C2: for every tree and configuration snapshot, the Yaml Inline
rendering drops nothing, and the Yaml File rendering is exactly the
Inline rendering with its first 4 characters removed. -/
theorem yaml_inline_vs_file (c : Content) (settings : Settings) :
    ∃ t : Text, serialize_content c .Yaml .Inline settings = some t ∧
      serialize_content c .Yaml .File settings = some (t.drop 4) := by
  refine ⟨(normalize c settings).as_yaml, rfl, ?_⟩
  have hlen : 4 ≤ (normalize c settings).as_yaml.length := by
    rw [Content.as_yaml, List.length_append]
    have hm : ("---\n".data).length = 4 := rfl
    omega
  simp [serialize_content, render, rustSlice, hlen]

/-- C4 (counterexample to the claim as stated): with sorting enabled and a
configured redaction that inserts a map with out-of-order keys, the tree
handed to the format encoder violates the recursive sortedness
invariant — redactions run after the sort and their output is not
re-sorted. -/
theorem normalize_sorted_counterexample :
    (normalize Content.Null
      ⟨true, [fun _ => Content.Map [(.Str "b", .Null), (.Str "a", .Null)]]⟩).is_sorted
      = false := by
  have hn : normalize Content.Null
      ⟨true, [fun _ => Content.Map [(.Str "b", .Null), (.Str "a", .Null)]]⟩
      = Content.Map [(.Str "b", .Null), (.Str "a", .Null)] := by
    simp [normalize, applyRules]
  rw [hn]
  decide

/-- C4 (amended): with the sort flag enabled, the tree handed to the
format encoder has every `Map` node ordered by the total key order at
every nesting depth, provided every configured redaction rule preserves
that invariant — in particular whenever the redaction list is empty. -/
theorem normalize_sorted_of_preserving (c : Content) (settings : Settings)
    (hs : settings.sort_maps = true)
    (hr : ∀ r ∈ settings.redactions, ∀ u : Content,
      u.is_sorted = true → (r u).is_sorted = true) :
    (normalize c settings).is_sorted = true := by
  unfold normalize
  rw [hs]
  simp only [if_true]
  exact applyRules_preserves_sorted _ _ hr (sortMaps_sorted c)

theorem normalize_sorted_of_preserving_witness :
    (normalize (Content.Map [(.Str "b", .Null), (.Str "a", .Null)])
      ⟨true, []⟩).is_sorted = true :=
  normalize_sorted_of_preserving _ ⟨true, []⟩ rfl (by simp)

/-- C10: the File-mode slice is total exactly under the collaborator
precondition: a text carrying the 4-character document marker prefix is
sliced to the text minus the marker, a text shorter than 4 characters
makes the slice panic (modelled as `none`); the modelled yaml collaborator
always produces the marker, and the File branch of `serialize_content` is
exactly this slice of the yaml output. -/
theorem yaml_file_slice_contract :
    (∀ t : Text, "---\n".data <+: t → rustSlice t 4 = some (t.drop 4)) ∧
    (∀ t : Text, t.length < 4 → rustSlice t 4 = none) ∧
    (∀ c : Content, "---\n".data <+: c.as_yaml) ∧
    (∀ (c : Content) (settings : Settings),
      serialize_content c .Yaml .File settings
        = rustSlice (normalize c settings).as_yaml 4) := by
  refine ⟨?_, ?_, ?_, fun c settings => rfl⟩
  · intro t hpre
    have hm : ("---\n".data).length = 4 := rfl
    have h4 : 4 ≤ t.length := by
      have := hpre.length_le
      omega
    simp [rustSlice, h4]
  · intro t hlt
    simp [rustSlice, show ¬4 ≤ t.length by omega]
  · intro c
    exact ⟨yamlTop c, rfl⟩

theorem yaml_file_slice_contract_witness :
    rustSlice "---\nx".data 4 = some "x".data ∧
    rustSlice "ab".data 4 = none := by
  constructor
  · have h := yaml_file_slice_contract.1 "---\nx".data ⟨"x".data, by decide⟩
    rw [h]
    decide
  · exact yaml_file_slice_contract.2.1 "ab".data (by decide)

/-- C6: `serialize_value` equals the spec composition: convert the input
to a tree, then normalize under the ambient configuration, then render —
the tree reaches `serialize_content` unchanged. -/
theorem serialize_value_eq_spec {α : Type} (fromValue : α → Option Content)
    (s : α) (format : SerializationFormat) (location : SnapshotLocation)
    (settings : Settings) :
    serialize_value fromValue s format location settings
      = serializeValueSpec fromValue s format location settings := by
  unfold serialize_value serializeValueSpec serialize_content
  cases fromValue s <;> rfl

/-- C7: `serialize_value_redacted` applies the caller-supplied rules, in
the order given, to the freshly converted tree before the normalization
pipeline, and the ambient sorting and ambient redactions of the
configuration still run afterwards inside `serialize_content` — explicit
rules first, then the ambient sort, then the ambient redactions. -/
theorem serialize_value_redacted_order {α : Type}
    (fromValue : α → Option Content) (rules : List (Content → Content))
    (s : α) (format : SerializationFormat) (location : SnapshotLocation)
    (settings : Settings) (c : Content) (h : fromValue s = some c) :
    serialize_value_redacted fromValue rules s format location settings
      = render (applyRules settings.redactions
          (if settings.sort_maps then (applyRules rules c).sort_maps
           else applyRules rules c)) format location := by
  simp only [serialize_value_redacted, h, serialize_content, normalize]

theorem serialize_value_redacted_order_witness :
    serialize_value_redacted (fun _ : Unit => some Content.Null)
      [fun _ => Content.Str "x"] () .Json .Inline ⟨false, []⟩
      = render (Content.Str "x") .Json .Inline := by
  have h := serialize_value_redacted_order (fun _ : Unit => some Content.Null)
    [fun _ => Content.Str "x"] () .Json .Inline ⟨false, []⟩ Content.Null rfl
  simpa [applyRules] using h

/-- C8: every failure category is fatal to the in-progress call: a
conversion failure or an encode failure makes the whole call abort, and
any returned text is exactly the render of the normalized tree — no call
path yields partial or degraded output. -/
theorem failures_are_fatal {α : Type} (fromValue : α → Option Content)
    (s : α) (format : SerializationFormat) (location : SnapshotLocation)
    (settings : Settings) :
    (fromValue s = none →
      serialize_value fromValue s format location settings = none) ∧
    (∀ c, fromValue s = some c →
      render (normalize c settings) format location = none →
      serialize_value fromValue s format location settings = none) ∧
    (∀ t, serialize_value fromValue s format location settings = some t →
      ∃ c, fromValue s = some c ∧
        render (normalize c settings) format location = some t) := by
  refine ⟨fun h => by simp [serialize_value, h], ?_, ?_⟩
  · intro c h hr
    simp [serialize_value, h, serialize_content, hr]
  · intro t ht
    cases hf : fromValue s with
    | none =>
      simp only [serialize_value, hf] at ht
      exact absurd ht (by simp)
    | some c =>
      exact ⟨c, rfl, by
        simpa [serialize_value, hf, serialize_content] using ht⟩

theorem failures_are_fatal_witness :
    serialize_value (fun _ : Unit => (none : Option Content)) ()
      .Json .Inline ⟨false, []⟩ = none ∧
    serialize_value (fun _ : Unit => some (Content.Str "hi")) ()
      .Toml .Inline ⟨false, []⟩ = none := by
  constructor
  · exact (failures_are_fatal (fun _ : Unit => none) ()
      .Json .Inline ⟨false, []⟩).1 rfl
  · exact (failures_are_fatal (fun _ : Unit => some (Content.Str "hi")) ()
      .Toml .Inline ⟨false, []⟩).2.1 (Content.Str "hi") rfl rfl

/-- C9: rendering is deterministic: two runs of `serialize_content` on the
same tree, format, location and configuration snapshot return identical
text — the model is a pure function of those inputs. -/
theorem render_deterministic (c : Content) (format : SerializationFormat)
    (location : SnapshotLocation) (settings : Settings) (t₁ t₂ : Text)
    (h₁ : serialize_content c format location settings = some t₁)
    (h₂ : serialize_content c format location settings = some t₂) :
    t₁ = t₂ := by
  rw [h₁] at h₂
  exact Option.some.inj h₂

theorem render_deterministic_witness : ("null".data : Text) = "null".data :=
  render_deterministic .Null .Json .Inline ⟨false, []⟩ _ _ rfl rfl

/-- C3: the csv, ron and toml renderings never end with a line terminator
and the json rendering introduces none; mechanism: the csv and toml
branches strip exactly one trailing newline from their encoder buffers
when present, while the ron and json branches return the encoder output
with no trailing post-processing. -/
theorem no_trailing_terminator (c : Content) (location : SnapshotLocation)
    (settings : Settings) :
    (∀ t, serialize_content c .Csv location settings = some t →
      endsWithNewline t = false) ∧
    (∀ t, serialize_content c .Ron location settings = some t →
      endsWithNewline t = false) ∧
    (∀ t, serialize_content c .Toml location settings = some t →
      endsWithNewline t = false) ∧
    (∀ t, serialize_content c .Json location settings = some t →
      endsWithNewline t = false) ∧
    (serialize_content c .Csv location settings
      = (csvBuf (normalize c settings)).map stripNewline) ∧
    (serialize_content c .Ron location settings
      = some (ronValue (normalize c settings) 0)) ∧
    (serialize_content c .Toml location settings
      = (renderTomlRaw (normalize c settings)).map stripNewline) ∧
    (serialize_content c .Json location settings
      = some (jsonValue (normalize c settings) 0)) := by
  refine ⟨?_, ?_, ?_, ?_, rfl, rfl, rfl, rfl⟩
  · intro t ht
    simp only [serialize_content, render] at ht
    obtain ⟨buf, hbuf, rfl⟩ := Option.map_eq_some'.mp ht
    simp only [csvBuf] at hbuf
    obtain ⟨rows, hrows, rfl⟩ := Option.map_eq_some'.mp hbuf
    exact endsWithNewline_eq_false _
      (stripNewline_flatten_ok rows (csvRows_ok _ rows hrows))
  · intro t ht
    simp only [serialize_content, render, Option.some.injEq] at ht
    exact ht ▸ endsWithNewline_eq_false _ (ronValue_getLast_ne_newline _ 0)
  · intro t ht
    simp only [serialize_content, render] at ht
    obtain ⟨raw, hraw, rfl⟩ := Option.map_eq_some'.mp ht
    cases hn : normalize c settings with
    | Map ps =>
      rw [hn] at hraw
      simp only [renderTomlRaw] at hraw
      obtain ⟨lines, hlines, rfl⟩ := Option.map_eq_some'.mp hraw
      exact endsWithNewline_eq_false _
        (stripNewline_flatten_ok lines (tomlLines_ok ps lines hlines))
    | Null => rw [hn] at hraw; simp [renderTomlRaw] at hraw
    | Boolean b => rw [hn] at hraw; simp [renderTomlRaw] at hraw
    | Num n => rw [hn] at hraw; simp [renderTomlRaw] at hraw
    | Str s => rw [hn] at hraw; simp [renderTomlRaw] at hraw
    | Bytes bs => rw [hn] at hraw; simp [renderTomlRaw] at hraw
    | Seq xs => rw [hn] at hraw; simp [renderTomlRaw] at hraw
  · intro t ht
    simp only [serialize_content, render, Option.some.injEq] at ht
    exact ht ▸ endsWithNewline_eq_false _ (jsonValue_getLast_ne_newline _ 0)

theorem no_trailing_terminator_witness :
    endsWithNewline "hi".data = false ∧
    endsWithNewline "\"hi\"".data = false ∧
    endsWithNewline "a = 1".data = false := by
  refine ⟨?_, ?_, ?_⟩
  · exact (no_trailing_terminator (.Str "hi") .Inline ⟨false, []⟩).1
      "hi".data rfl
  · exact (no_trailing_terminator (.Str "hi") .Inline ⟨false, []⟩).2.1
      "\"hi\"".data rfl
  · exact (no_trailing_terminator (.Map [(.Str "a", .Num 1)]) .Inline
      ⟨false, []⟩).2.2.1 "a = 1".data rfl

/-- C5: in csv rendering, a top-level sequence is serialized one output
row per element under a single header derived from the first element's
shape, and any other tree as a single record; a sequence of three
uniformly shaped records yields one header line plus exactly three data
lines with no trailing blank line, and a single map record yields one
header line plus one data line. -/
theorem csv_row_semantics :
    (∀ (items : List Content) (location : SnapshotLocation),
      render (.Seq items) .Csv location
        = (csvRows items).map fun rows =>
            stripNewline ((rows.map (· ++ ['\n'])).flatten)) ∧
    (∀ (c : Content) (location : SnapshotLocation), c.as_slice = none →
      render c .Csv location
        = (csvRows [c]).map fun rows =>
            stripNewline ((rows.map (· ++ ['\n'])).flatten)) ∧
    (render (.Seq
        [.Map [(.Str "a", .Num 1), (.Str "b", .Str "x")],
         .Map [(.Str "a", .Num 2), (.Str "b", .Str "y")],
         .Map [(.Str "a", .Num 3), (.Str "b", .Str "z")]]) .Csv .File
      = some "a,b\n1,x\n2,y\n3,z".data) ∧
    (("a,b\n1,x\n2,y\n3,z".data : Text).count '\n' = 3 ∧
      endsWithNewline "a,b\n1,x\n2,y\n3,z".data = false) ∧
    (render (.Map [(.Str "a", .Num 1), (.Str "b", .Str "x")]) .Csv .File
      = some "a,b\n1,x".data) := by
  refine ⟨?_, ?_, by decide, by decide, by decide⟩
  · intro items location
    cases h : csvRows items <;>
      simp [render, csvBuf, csvRecords, Content.as_slice, h]
  · intro c location hslice
    cases h : csvRows [c] <;>
      simp [render, csvBuf, csvRecords, hslice, h]

theorem csv_row_semantics_witness :
    render Content.Null .Csv .Inline
      = (csvRows [Content.Null]).map (fun rows =>
          stripNewline ((rows.map (· ++ ['\n'])).flatten)) :=
  csv_row_semantics.2.1 Content.Null .Inline rfl

end Insta
